import Mathlib

/-!
Verification of the relationship / ancestor-resolution core of
draw-dna-matches.py (a GEDCOM DNA-match drawing script).

The Python source keeps its genealogy in string-keyed dictionaries:
`data[i_key][indi]` has the fields `famc` (families in which the person is a
child) and `fams`; `data[f_key][fam]` has optional partner entries `wife` and
`husb` (each stored as a list whose element 0 is the only one the script ever
reads) plus a child list.  We embed individuals and families as structures,
insertion-ordered string-keyed dictionaries as association lists with Python's
update-in-place semantics, and the recursive traversal `find_ancestors` with an
explicit recursion-depth fuel: the Python recursion has no cycle guard, so on
cyclic parent links it never returns, which the fuel model renders as the
computation being `none` for every fuel.
-/

namespace DrawDna

/-- Python dict lookup (string keys, first matching entry). -/
def alookup {α : Type} : List (String × α) → String → Option α
| [], _ => none
| (k0, v0) :: rest, k => if k0 = k then some v0 else alookup rest k

/-- Python dict assignment: replaces an existing key in place (keeping its
insertion position) or appends a new key at the end. -/
def aupdate {α : Type} : List (String × α) → String → α → List (String × α)
| [], k, v => [(k, v)]
| (k0, v0) :: rest, k, v =>
  if k0 = k then (k, v) :: rest else (k0, v0) :: aupdate rest k v

/-- The fields of `data[i_key][indi]` used by the algorithms. -/
structure IndiData where
  famc : List String
  fams : List String
deriving DecidableEq

/-- The fields of `data[f_key][fam]` used by the algorithms.  The source keeps
each partner slot as a list and always reads element 0; the options below hold
that element ( `none` = the key is absent from the family dict ). -/
structure FamData where
  wife : Option String
  husb : Option String
  chil : List String
deriving DecidableEq

/-- The parsed GEDCOM data: `data[i_key]` and `data[f_key]`. -/
structure Store where
  indi : List (String × IndiData)
  fam : List (String × FamData)

/-- `data[i_key][indi]`; an id that is absent behaves as a record without
a `famc` link (the script assumes referential consistency). -/
def getIndi (st : Store) (i : String) : IndiData :=
  (alookup st.indi i).getD ⟨[], []⟩

/-- `data[f_key][fam]`. -/
def getFam (st : Store) (f : String) : FamData :=
  (alookup st.fam f).getD ⟨none, none, []⟩

/-- One entry of the ancestor map built by `find_ancestors`:
`{ 'fam': family, 'path': [families to get to this person] }`. -/
structure AncRec where
  fam : String
  path : List String
deriving DecidableEq

/-- The ancestor dict, in insertion order (Python dicts preserve it). -/
abbrev AncMap : Type := List (String × AncRec)

/-- The update step of `find_ancestors` lines 874-880: keep the existing entry
only when its path is strictly shorter than the new one (so an equal-length
path overwrites). -/
def maybeUpdate (anc : AncMap) (a fam : String) (newPath : List String) : AncMap :=
  match alookup anc a with
  | some r =>
    if r.path.length < newPath.length then anc
    else aupdate anc a ⟨fam, newPath⟩
  | none => aupdate anc a ⟨fam, newPath⟩

/-- `find_ancestors( indi, path, ancestors )` (source lines 856-882) with an
explicit recursion-depth fuel.  The source recurses through `famc[0]`, visits
the partners in the fixed order `['wife', 'husb']`, updates the shared
accumulator before each recursive call, and recurses unconditionally (there is
no cycle guard); `none` means the recursion depth exceeded the fuel, which for
every fuel models non-termination. -/
def find_ancestors (st : Store) : Nat → String → List String → AncMap → Option AncMap
| 0, _, _, _ => none
| fuel + 1, indi, path, anc =>
  match (getIndi st indi).famc with
  | [] => some anc
  | fam :: _ =>
    match (getFam st fam).wife with
    | none =>
      match (getFam st fam).husb with
      | none => some anc
      | some b =>
        find_ancestors st fuel b (path ++ [fam]) (maybeUpdate anc b fam (path ++ [fam]))
    | some a =>
      match find_ancestors st fuel a (path ++ [fam]) (maybeUpdate anc a fam (path ++ [fam])) with
      | none => none
      | some anc1 =>
        match (getFam st fam).husb with
        | none => some anc1
        | some b =>
          find_ancestors st fuel b (path ++ [fam]) (maybeUpdate anc1 b fam (path ++ [fam]))

/-- The record built by `find_common_ancestor` (its five dict keys).
`matchFam` and `matchPath` stand for the source's `'match-fam'` and
`'match-path'` keys. -/
structure CommonRec where
  indi : String
  fam : String
  path : List String
  matchFam : String
  matchPath : List String
deriving DecidableEq

/-- The collateral-relation loop of `find_common_ancestor` (source lines
921-947): iterate the match's ancestor dict in insertion order, keep the
candidate with the smaller `len(ancestors[ancestor]['path'])`, and on an exact
tie replace the held candidate only when the candidate's two families agree. -/
def collateral_loop (base_ancestors : AncMap) :
    List (String × AncRec) → Nat → Option CommonRec → Option CommonRec
| [], _, res => res
| (a, r) :: rest, found_len, res =>
  match alookup base_ancestors a with
  | none => collateral_loop base_ancestors rest found_len res
  | some br =>
    if r.path.length = found_len then
      if r.fam = br.fam then
        collateral_loop base_ancestors rest found_len (some ⟨a, r.fam, r.path, br.fam, br.path⟩)
      else collateral_loop base_ancestors rest found_len res
    else if r.path.length < found_len then
      collateral_loop base_ancestors rest r.path.length (some ⟨a, r.fam, r.path, br.fam, br.path⟩)
    else collateral_loop base_ancestors rest found_len res

/-- `find_common_ancestor( indi, base_person, base_ancestors )` (source lines
885-949).  The outer `Option` is the fuel of the inner `find_ancestors` call;
the inner `Option CommonRec` models the returned dict, `none` standing for the
empty dict (no common ancestor). -/
def find_common_ancestor (st : Store) (fuel : Nat) (indi base_person : String)
    (base_ancestors : AncMap) : Option (Option CommonRec) :=
  match find_ancestors st fuel indi [] [] with
  | none => none
  | some ancestors =>
    match alookup ancestors base_person with
    | some r => some (some ⟨base_person, r.fam, r.path, r.fam, []⟩)
    | none =>
      match alookup base_ancestors indi with
      | some r => some (some ⟨indi, r.fam, [], r.fam, r.path⟩)
      | none => some (collateral_loop base_ancestors ancestors 1000000 none)

/-- One decimal digit character, `chr(48 + n % 10)`. -/
def decDigit (n : Nat) : Char := Char.ofNat (48 + n % 10)

/-- Decimal digits of a natural number; the first argument is fuel, always
called with `fuel = n`, which is enough for every `n` (the fallback for
exhausted fuel is never reached from `natStr`). -/
def natDigitsGo : Nat → Nat → List Char
| 0, _ => ['0']
| fuel + 1, n => if n < 10 then [decDigit n] else natDigitsGo fuel (n / 10) ++ [decDigit n]

/-- Python's `str` on a non-negative integer. -/
def natStr (n : Nat) : String := String.mk (natDigitsGo n n)

/-- Python's `'g' * n`. -/
def gstr (n : Nat) : String := String.mk (List.replicate n 'g')

/-- `find_relation_label( me, them )` (source lines 221-294), translated branch
by branch, including the unreachable inner branches and the `'N/A'` fallback. -/
def find_relation_label (me them : Nat) : String :=
  if them = 0 then
    if me = 0 then "self"
    else if me = 1 then "parent"
    else if me = 2 then "grandparent"
    else gstr (me - 2) ++ "-grandparent"
  else if me = 0 then
    if them = 0 then "self"
    else if them = 1 then "child"
    else if them = 2 then "grandchild"
    else gstr (them - 2) ++ "-grandchild"
  else if me = 1 then
    if them = 1 then "sibling"
    else if them = 2 then "nibling"
    else if them = 3 then "grandnibling"
    else gstr (them - 3) ++ "-grandnibling"
  else if me = them then
    if me = 0 then "self"
    else if me = 1 then "sibling"
    else natStr (me - 1) ++ "C"
  else if them = 1 then
    if me = 2 then "auncle"
    else if me = 3 then "grandauncle"
    else gstr (me - 3) ++ "-grandauncle"
  else if me = 2 then "1C" ++ natStr (them - 2) ++ "R"
  else if 2 < me then
    if them < me then natStr (them - 1) ++ "C" ++ natStr (me - them) ++ "R"
    else natStr (me - 1) ++ "C" ++ natStr (them - me) ++ "R"
  else "N/A"

/-- `compute_relation( closest )` (source lines 297-303): `gen_me` is the
length of `closest['match-path']`, `gen_them` the length of `closest['path']`,
and the label gets the `'half-'` marker exactly when the two families differ. -/
def compute_relation (closest : CommonRec) : String :=
  (if closest.fam ≠ closest.matchFam then "half-" else "") ++
    find_relation_label closest.matchPath.length closest.path.length

/-- Python's `str.replace('  ', ' ')`: one left-to-right non-overlapping pass
collapsing each double space to a single space. -/
def rds : List Char → List Char
| ' ' :: ' ' :: rest => ' ' :: rds rest
| c :: rest => c :: rds rest
| [] => []

/-- Python's `str.strip()`. -/
def trimChars (l : List Char) : List Char :=
  ((l.dropWhile Char.isWhitespace).reverse.dropWhile Char.isWhitespace).reverse

/-- Helper of `splitWS`: cut at every whitespace character (empty pieces
included; they are filtered by the caller, matching Python `str.split()`). -/
def splitWSAux : List Char → List Char → List (List Char)
| [], acc => [acc.reverse]
| c :: rest, acc =>
  if c.isWhitespace then acc.reverse :: splitWSAux rest []
  else splitWSAux rest (c :: acc)

/-- All maximal whitespace-free pieces, possibly empty. -/
def splitWS (l : List Char) : List (List Char) := splitWSAux l []

/-- The token list `parts` of `extract_dna_cm`: lower-cased, stripped, split on
whitespace with empty pieces dropped (Python `str.split()`). -/
def dna_tokens (note : String) : List (List Char) :=
  (splitWS (List.map Char.toLower (trimChars (rds note.data)))).filter
    (fun t => decide (t ≠ []))

/-- The test on `parts[1]`: `parts[1].startswith('cm') and (parts[1] == 'cm' or
parts[1][2] in [' ','.',',',';',':'])` (the note was lower-cased already). -/
def unit_ok : List Char → Bool
| 'c' :: 'm' :: [] => true
| 'c' :: 'm' :: c :: _ => decide (c ∈ [' ', '.', ',', ';', ':'])
| _ => false

/-- One group of decimal digits as Python's float grammar accepts it:
non-empty, and underscores may appear only between two digits
(`digit (["_"] digit)*`, CPython's `digitpart`).  Digits are modelled as
ASCII. -/
def digitPart : List Char → Bool
| [] => false
| [c] => c.isDigit
| c :: '_' :: rest => c.isDigit && digitPart rest
| c :: rest => c.isDigit && digitPart rest

/-- The value of a digit string. -/
def natFromDigits (l : List Char) : Nat :=
  l.foldl (fun a c => a * 10 + (c.toNat - 48)) 0

/-- The result of Python's `float()`: a finite binary64 value, an infinity,
or a NaN.  A finite double is carried exactly as a dyadic `n * 2 ^ eff` with
the mantissa `n` as produced by the rounding step (the sign of a negative
zero is dropped because this program only compares with `0` and rounds,
where `-0.0` behaves like `0.0`). -/
inductive PyFloat where
| finite (n : Int) (eff : Int)
| inf (neg : Bool)
| nan
deriving DecidableEq

/-- Round half to even of the fraction `n / k` for `k > 0`.  Python's
`round()` with no digit count on a float is correctly rounded, i.e. exactly
this applied to the float's exact value. -/
def roundHalfEvenScaled (n k : Int) : Int :=
  let f := Int.fdiv n k
  let rm := n - f * k
  if 2 * rm < k then f
  else if k < 2 * rm then f + 1
  else if f % 2 = 0 then f else f + 1

/-- Python `round()` on the double `n * 2 ^ eff`, as used by
`int(round(result))` (the `int()` is the identity on `round`'s result). -/
def pyRound (n eff : Int) : Int :=
  if 0 ≤ eff then n * (((2 : ℕ) ^ eff.toNat : ℕ) : Int)
  else roundHalfEvenScaled n (((2 : ℕ) ^ (-eff).toNat : ℕ) : Int)

/-- Fuel-driven upward binade walk on the fraction `n / d ≥ 1`: returns the
`e` with `2 ^ e ≤ n / d < 2 ^ (e + 1)` whenever `n / d < 2 ^ fuel`. -/
def walkUpF : Nat → Int → Int → Int → Int
| 0, _, _, e => e
| fl + 1, n, d, e => if n < 2 * d then e else walkUpF fl n (2 * d) (e + 1)

/-- Fuel-driven downward binade walk on the fraction `n / d < 1` with
`n > 0`: returns the `e` with `2 ^ e ≤ n / d < 2 ^ (e + 1)` whenever
`2 ^ (-fuel) ≤ n / d`. -/
def walkDownF : Nat → Int → Int → Int → Int
| 0, _, _, e => e
| fl + 1, n, d, e => if d ≤ n then e else walkDownF fl (2 * n) d (e - 1)

/-- The binade exponent of the positive fraction `n / d`:
`2 ^ e ≤ n / d < 2 ^ (e + 1)`.  The fuel 1200 covers every binade of
binary64 including the subnormal range (the caller caps its inputs to
magnitudes between `10 ^ (-324)` and `10 ^ 309`). -/
def log2F (n d : Int) : Int :=
  if d ≤ n then walkUpF 1200 n d 0 else walkDownF 1200 n d 0

/-- IEEE-754 binary64 rounding (round to nearest, ties to even) of the
positive fraction `qn / qd`: the mantissa is rounded at 53 bits — or at
`2 ^ (-1074)` in the subnormal range — giving the double `n * 2 ^ eff`; a
rounded result of `2 ^ 1024` or more overflows to infinity (`none`), and a
mantissa rounded to zero gives the canonical zero `(0, 0)`. -/
def roundToDouble (qn qd : Int) : Option (Int × Int) :=
  let e := log2F qn qd
  let eff : Int := max (e - 52) (-1074)
  let sn : Int := if 0 ≤ eff then qn else qn * (((2 : ℕ) ^ (-eff).toNat : ℕ) : Int)
  let sd : Int := if 0 ≤ eff then qd * (((2 : ℕ) ^ eff.toNat : ℕ) : Int) else qd
  let n := roundHalfEvenScaled sn sd
  if n = 0 then some (0, 0)
  else if (((2 : ℕ) ^ 1024 : ℕ) : Int)
        * (if 0 ≤ eff then 1 else (((2 : ℕ) ^ (-eff).toNat : ℕ) : Int))
      ≤ n * (if 0 ≤ eff then (((2 : ℕ) ^ eff.toNat : ℕ) : Int) else 1) then none
  else some (n, eff)

/-- Python `float()` on one whitespace-free, already lower-cased token
(`extract_dna_cm` lower-cases the note before splitting): an optional sign,
then `inf` / `infinity` / `nan`, or a mantissa of underscore-grouped digit
parts with at most one point, with an optional `e`-exponent; the decimal
value is converted to the nearest binary64.  `none` is `ValueError`
(caught by the script's `string_is_numeric`).  Digits are modelled as ASCII.
Magnitudes of at least `10 ^ 309` overflow to infinity and magnitudes below
`10 ^ (-324)` (smaller than half the least subnormal) round to zero before
the binade walk, keeping it inside its fuel; both shortcuts agree with the
rounding they bypass. -/
def float_of_string (cs : List Char) : Option PyFloat :=
  let sr : Bool × List Char :=
    match cs with
    | '-' :: r => (true, r)
    | '+' :: r => (false, r)
    | r => (false, r)
  if sr.2 = ['i', 'n', 'f'] || sr.2 = ['i', 'n', 'f', 'i', 'n', 'i', 't', 'y'] then
    some (.inf sr.1)
  else if sr.2 = ['n', 'a', 'n'] then some .nan
  else
    let mant := sr.2.takeWhile (fun c => decide (c ≠ 'e'))
    let erest := sr.2.dropWhile (fun c => decide (c ≠ 'e'))
    let expOpt : Option Int :=
      match erest with
      | [] => some 0
      | 'e' :: t =>
        let esr : Bool × List Char :=
          match t with
          | '-' :: r => (true, r)
          | '+' :: r => (false, r)
          | r => (false, r)
        if digitPart esr.2 then
          let ev : Int := natFromDigits (esr.2.filter (fun c => decide (c ≠ '_')))
          some (if esr.1 then -ev else ev)
        else none
      | _ => none
    match expOpt with
    | none => none
    | some ex =>
      let ip := mant.takeWhile (fun c => decide (c ≠ '.'))
      let frest := mant.dropWhile (fun c => decide (c ≠ '.'))
      let fpOpt : Option (List Char) :=
        match frest with
        | [] => some []
        | '.' :: t => some t
        | _ => none
      match fpOpt with
      | none => none
      | some fp =>
        if ((decide (ip = []) || digitPart ip) && (decide (fp = []) || digitPart fp))
            && !(decide (ip = []) && decide (fp = [])) then
          let mdig := (ip ++ fp).filter (fun c => decide (c ≠ '_'))
          let mval : Nat := natFromDigits mdig
          let f : Nat := (fp.filter (fun c => decide (c ≠ '_'))).length
          if mval = 0 then some (.finite 0 0)
          else
            let t : Int := ex - f
            let dTrue : Int := (natDigitsGo mval mval).length
            if 310 ≤ t + dTrue then some (.inf sr.1)
            else if t + dTrue ≤ -324 then some (.finite 0 0)
            else
              let qn : Int :=
                (mval : Int) * (if 0 ≤ t then (((10 : ℕ) ^ t.toNat : ℕ) : Int) else 1)
              let qd : Int := if 0 ≤ t then 1 else (((10 : ℕ) ^ (-t).toNat : ℕ) : Int)
              match roundToDouble qn qd with
              | none => some (.inf sr.1)
              | some nv => some (.finite (if sr.1 then -nv.1 else nv.1) nv.2)
        else none

/-- `extract_dna_cm( indi, note )` (source lines 306-342), modelled with its
exception behaviour (the `indi` argument is used only for the stderr
diagnostics).  `some none` models every `return None` path: fewer than two
tokens, a second token that is not a `cm` marker, an unparseable number
(`string_is_numeric` catches the `ValueError`), or a negative value
(including `-inf`).  The outer `none` models an uncaught exception: a
positive infinity raises `OverflowError` and a NaN raises `ValueError`
inside `int(round(result))`, neither of which the source catches. -/
def extract_dna_cm (note : String) : Option (Option Int) :=
  match dna_tokens note with
  | t0 :: t1 :: _ =>
    if unit_ok t1 then
      match float_of_string (t0.filter (fun c => decide (c ≠ ','))) with
      | some (.finite n eff) =>
        if n < 0 then some none
        else some (some (pyRound n eff))
      | some (.inf neg) => if neg then some none else none
      | some .nan => none
      | none => some none
    else some none
  | _ => some none

/-- `does_fam_have_match( matches, family )` (source lines 383-391): the loop
over `partner_types = ['wife', 'husb']`, checking `family[parent][0]` against
the keys of the match dict (`matchKeys` here, `matches` being reserved in
Lean); children are never consulted. -/
def does_fam_have_match (matchKeys : List String) (family : FamData) : Bool :=
  (match family.wife with
   | some p => decide (p ∈ matchKeys)
   | none => false) ||
  (match family.husb with
   | some p => decide (p ∈ matchKeys)
   | none => false)

/-- One entry of the `matched` dict: the note text and the computed
`'common'` record (`none` models both Python's `None` for the base person and
the empty dict returned for a match without a common ancestor). -/
structure MatchRec where
  note : String
  common : Option CommonRec
deriving DecidableEq

/-- The `common_fams` collection loop (source lines 1108-1114).  For every
matched person other than `me` it reads `matched[indi]['common']['indi']`
without first checking that the record is non-empty; on an empty record Python
raises `KeyError`, modelled by `none`. -/
def common_fams_loop (me : String) :
    List (String × MatchRec) → List (String × String) → Option (List (String × String))
| [], acc => some acc
| (indi, m) :: rest, acc =>
  if indi = me then common_fams_loop me rest acc
  else
    match m.common with
    | none => none
    | some c =>
      common_fams_loop me rest
        (aupdate acc c.matchFam (find_relation_label c.matchPath.length 0 ++ "s"))

/-! ### Definitions used to state the claims -/

/-- `s` begins with the characters of `p`. -/
def StartsWith (p s : String) : Prop := s.data.take p.data.length = p.data

/-- `ChainTo st x fams a`: following the authoritative `famc[0]` links upward
from `x`, the family list `fams` is an actual parent chain ending at a family
in which `a` occupies a partner slot.  These are exactly the candidate paths
the `find_ancestors` recursion walks. -/
inductive ChainTo (st : Store) : String → List String → String → Prop where
| one (i fam rest a) : (getIndi st i).famc = fam :: rest →
    ((getFam st fam).wife = some a ∨ (getFam st fam).husb = some a) →
    ChainTo st i [fam] a
| cons (i fam rest p fams a) : (getIndi st i).famc = fam :: rest →
    ((getFam st fam).wife = some p ∨ (getFam st fam).husb = some p) →
    ChainTo st p fams a → ChainTo st i (fam :: fams) a

/-- Decidable acyclicity certificate: `h` ranks every stored individual
strictly above the partners of their authoritative child-of family, so every
parent chain strictly descends in rank. -/
def ParentRankB (st : Store) (h : String → Nat) : Bool :=
  st.indi.all fun p =>
    match (Prod.snd p).famc.head? with
    | none => true
    | some fam =>
      (match (getFam st fam).wife with
       | none => true
       | some q => decide (h q < h (Prod.fst p))) &&
      (match (getFam st fam).husb with
       | none => true
       | some q => decide (h q < h (Prod.fst p)))

/-- Propositional form of `ParentRankB`. -/
abbrev ParentRank (st : Store) (h : String → Nat) : Prop := ParentRankB st h = true

/-- `r` is a genuine common-ancestor record drawn from the two ancestor maps:
its id has an entry in the match-side map `anc` supplying `fam` and `path`,
and an entry in the reference-side map `base` supplying `matchFam` and
`matchPath`. -/
def CommonEntry (base anc : AncMap) (r : CommonRec) : Prop :=
  ∃ e b, (r.indi, e) ∈ anc ∧ alookup base r.indi = some b ∧
    r.fam = e.fam ∧ r.path = e.path ∧ r.matchFam = b.fam ∧ r.matchPath = b.path

/-- The fuel-indexed model of `find_ancestors( x, [], dict() )` succeeds for
some recursion depth. -/
def terminatesOn (st : Store) (x : String) : Prop :=
  ∃ fuel m, find_ancestors st fuel x [] [] = some m

/-- The ancestor map computed by `find_ancestors( x, [], dict() )` at a given
fuel (the empty map when the fuel is exhausted). -/
def resultMap (st : Store) (fuel : Nat) (x : String) : AncMap :=
  (find_ancestors st fuel x [] []).getD []

/-! ### Concrete stores used by the counterexamples and witnesses -/

/-- C1 store: the reference `me` (parents `B`, `C` in family `FM`) and a DNA
match `D` whose tree (parents `E`, `F2` in family `FD`) is disjoint from
`me`'s. -/
def c1store : Store :=
  ⟨[("me", ⟨["FM"], []⟩), ("D", ⟨["FD"], []⟩)],
   [("FM", ⟨some "B", some "C", ["me"]⟩), ("FD", ⟨some "E", some "F2", ["D"]⟩)]⟩

/-- `my_ancestors` of `c1store`'s reference person. -/
def c1myAnc : AncMap := (find_ancestors c1store 10 "me" [] []).getD []

/-- The `matched` dict after the common-ancestor pass on `c1store`: `me` with
`common = None`, and `D` with the empty common record. -/
def c1matched : List (String × MatchRec) :=
  [("me", ⟨"me", none⟩), ("D", ⟨"42 cM", none⟩)]

/-- A store whose parent links contain a cycle: `x` is recorded as a partner
of their own child-of family `fx`. -/
def cycStore : Store :=
  ⟨[("x", ⟨["fx"], []⟩)], [("fx", ⟨some "x", none, ["x"]⟩)]⟩

/-- An acyclic one-link store: `a` is the child of `b` through family `F`. -/
def c2aStore : Store :=
  ⟨[("a", ⟨["F"], []⟩)], [("F", ⟨some "b", none, ["a"]⟩)]⟩

/-- A rank function witnessing that `c2aStore` is acyclic. -/
def c2rank (i : String) : Nat := if i = "a" then 1 else 0

/-- C3 store.  Common ancestors of `me` and the match `M`: `A` (distance 1
from `M`, 2 from `me`) and `B` (distance 2 from `M`, 1 from `me`). -/
def c3store : Store :=
  ⟨[("me", ⟨["FM"], []⟩), ("M", ⟨["FX"], []⟩), ("C", ⟨["FC"], []⟩),
    ("E", ⟨["FE"], []⟩)],
   [("FM", ⟨some "B", some "C", ["me"]⟩), ("FC", ⟨some "A", none, ["C"]⟩),
    ("FX", ⟨some "A", some "E", ["M"]⟩), ("FE", ⟨some "B", none, ["E"]⟩)]⟩

/-- Reference-side ancestor map of `c3store`. -/
def c3base : AncMap := (find_ancestors c3store 10 "me" [] []).getD []

/-- Match-side ancestor map of `c3store`. -/
def c3anc : AncMap := (find_ancestors c3store 10 "M" [] []).getD []

/-- C4 store: the reference `me` is the child of the match `P`. -/
def c4store : Store :=
  ⟨[("me", ⟨["FM"], []⟩)], [("FM", ⟨some "P", none, ["me"]⟩)]⟩

/-- Reference-side ancestor map of `c4store`. -/
def c4anc : AncMap := (find_ancestors c4store 10 "me" [] []).getD []

/-- C5 store: `G` (and `H`) are reachable from `X` by two distinct chains of
equal length, first through the mother `P` (family `FP`), then through the
father `Q` (family `FQ`). -/
def c5store : Store :=
  ⟨[("X", ⟨["F1"], []⟩), ("P", ⟨["FP"], []⟩), ("Q", ⟨["FQ"], []⟩)],
   [("F1", ⟨some "P", some "Q", ["X"]⟩), ("FP", ⟨some "G", some "H", ["P"]⟩),
    ("FQ", ⟨some "G", some "H", ["Q"]⟩)]⟩

/-- The ancestor map `find_ancestors` computes for `X` in `c5store`. -/
def c5map : AncMap :=
  [("P", ⟨"F1", ["F1"]⟩), ("G", ⟨"FQ", ["F1", "FQ"]⟩),
   ("H", ⟨"FQ", ["F1", "FQ"]⟩), ("Q", ⟨"F1", ["F1"]⟩)]

/-! ### Theorems -/

/-- Helper: on the cyclic store the recursion consumes one unit of fuel per
level forever, so it fails for every fuel. -/
theorem cyc_aux : ∀ fuel path anc, find_ancestors cycStore fuel "x" path anc = none := by
  intro fuel
  induction fuel with
  | zero => intro path anc; rfl
  | succ n ih =>
    intro path anc
    have h1 : getIndi cycStore "x" = ⟨["fx"], []⟩ := by decide
    have h2 : getFam cycStore "fx" = ⟨some "x", none, ["x"]⟩ := by decide
    simp only [find_ancestors, h1, h2]
    rw [ih]

/-- C2 counterexample: `find_ancestors` has no cycle guard, so on a store
whose parent links contain a cycle the recursion never terminates (the
fuel-indexed model fails at every depth), contradicting the claim that the
cyclic branch is truncated. -/
theorem c2_cycle_counterexample : ¬ terminatesOn cycStore "x" := by
  rintro ⟨fuel, m, hm⟩
  rw [cyc_aux] at hm
  exact Option.noConfusion hm

/-- C1: on a store where the match `D` shares no ancestor with the reference
`me`, `find_common_ancestor` itself returns the empty record (first
conjunct), but the module-level `common_fams` collection loop then reads
`matched[indi]['common']['indi']` without guarding against the empty record
and raises `KeyError` (second conjunct, `none` = the raised exception), so
the program does not continue to report the match as not displayed. -/
theorem c1_no_common_ancestor_code_bug :
    find_common_ancestor c1store 10 "D" "me" c1myAnc = some none
    ∧ common_fams_loop "me" c1matched [] = none := by decide

/-- C3 counterexample: in the collateral case the code minimizes the
match-side path length, not the reference-side one.  In `c3store` the
returned ancestor is `A` with reference-side path `["FM", "FC"]` of length 2,
although `B` is also common to both maps with reference-side path `["FM"]` of
length 1. -/
theorem c3_collateral_counterexample :
    find_common_ancestor c3store 10 "M" "me" c3base
      = some (some ⟨"A", "FX", ["FX"], "FC", ["FM", "FC"]⟩)
    ∧ alookup c3base "B" = some ⟨"FM", ["FM"]⟩
    ∧ alookup c3anc "B" = some ⟨"FE", ["FX", "FE"]⟩
    ∧ (["FM"] : List String).length < (["FM", "FC"] : List String).length := by decide

/-- C4 counterexample: with the match `P` a direct ancestor of the reference
`me`, the record's `path` field is `[]` even though the reference descends
from `P` through `["FM"]` (held by the reference-side ancestor map), and
`match-path` holds that reference-side list `["FM"]` even though the match's
own distance to the ancestor (itself) is zero — the two fields hold the
opposite sides from what the claim states. -/
theorem c4_fields_counterexample :
    find_common_ancestor c4store 10 "P" "me" c4anc
      = some (some ⟨"P", "FM", [], "FM", ["FM"]⟩)
    ∧ alookup c4anc "P" = some ⟨"FM", ["FM"]⟩ := by decide

/-- C5 counterexample: `G` is reachable from `X` by two equal-length chains,
first (wife side, visited first) through `["F1", "FP"]` and then (husband
side) through `["F1", "FQ"]`; the retained entry records the later chain
`⟨"FQ", ["F1", "FQ"]⟩`, not the first-seen one, because an equal-length path
overwrites. -/
theorem c5_tie_counterexample :
    find_ancestors c5store 10 "X" [] [] = some c5map
    ∧ alookup c5map "G" = some ⟨"FQ", ["F1", "FQ"]⟩
    ∧ ChainTo c5store "X" ["F1", "FP"] "G"
    ∧ (["F1", "FP"] : List String).length = (["F1", "FQ"] : List String).length
    ∧ ("FP" : String) ≠ "FQ" := by
  refine ⟨by decide, by decide, ?_, by decide, by decide⟩
  exact ChainTo.cons "X" "F1" [] "P" ["FP"] "G" (by decide) (Or.inl (by decide))
    (ChainTo.one "P" "FP" [] "G" (by decide) (Or.inl (by decide)))

set_option maxRecDepth 8000 in
/-- C6 counterexample: a note whose only token is a non-negative number is
rejected (`None`), so the `cM` unit marker is mandatory, not optional; the
same number followed by the marker is accepted. -/
theorem c6_unit_marker_counterexample :
    extract_dna_cm "290" = some none
    ∧ extract_dna_cm "290 cM across 15 segments" = some (some 290) := by decide

/-- C7: the stated vectors of the relationship-label function, with the first
argument the reference-side generation distance and the second the match-side
distance. -/
theorem c7_relation_label_vectors :
    find_relation_label 1 1 = "sibling" ∧ find_relation_label 0 0 = "self"
    ∧ find_relation_label 2 0 = "grandparent" ∧ find_relation_label 1 0 = "parent"
    ∧ find_relation_label 2 2 = "1C" ∧ find_relation_label 3 3 = "2C"
    ∧ find_relation_label 3 2 = "1C1R" ∧ find_relation_label 2 1 = "auncle"
    ∧ find_relation_label 1 2 = "nibling" := by decide

/-- Helper: a decimal digit character is neither `'h'` nor `'N'`. -/
theorem decDigit_ne (n : Nat) : decDigit n ≠ 'h' ∧ decDigit n ≠ 'N' := by
  unfold decDigit
  have h : n % 10 < 10 := Nat.mod_lt _ (by omega)
  revert h
  generalize n % 10 = m
  intro h
  interval_cases m <;> exact ⟨by decide, by decide⟩

/-- Helper: the digit string of a natural number is non-empty and starts with
a character other than `'h'` and `'N'`. -/
theorem natDigitsGo_head : ∀ fuel n, ∃ c cs,
    natDigitsGo fuel n = c :: cs ∧ c ≠ 'h' ∧ c ≠ 'N' := by
  intro fuel
  induction fuel with
  | zero => exact fun n => ⟨'0', [], rfl, by decide, by decide⟩
  | succ f ih =>
    intro n
    by_cases h : n < 10
    · refine ⟨decDigit n, [], ?_, (decDigit_ne n).1, (decDigit_ne n).2⟩
      simp [natDigitsGo, h]
    · obtain ⟨c, cs, hgo, hc1, hc2⟩ := ih (n / 10)
      refine ⟨c, cs ++ [decDigit n], ?_, hc1, hc2⟩
      simp [natDigitsGo, h, hgo]

/-- Helper: `'g' * k ++ s` starts with `'g'` when `k > 0`. -/
theorem gstr_head (k : Nat) (hk : 0 < k) (s : String) :
    ∃ c cs, (gstr k ++ s).data = c :: cs ∧ c ≠ 'h' ∧ c ≠ 'N' := by
  obtain ⟨j, rfl⟩ : ∃ j, k = j + 1 := ⟨k - 1, by omega⟩
  exact ⟨'g', List.replicate j 'g' ++ s.data,
    by simp [gstr, String.data_append, List.replicate_succ], by decide, by decide⟩

/-- Helper: `str(n) + s` starts with a digit. -/
theorem natStr_head (n : Nat) (s : String) :
    ∃ c cs, (natStr n ++ s).data = c :: cs ∧ c ≠ 'h' ∧ c ≠ 'N' := by
  obtain ⟨c, cs, hgo, h1, h2⟩ := natDigitsGo_head n n
  exact ⟨c, cs ++ s.data, by simp [natStr, String.data_append, hgo], h1, h2⟩

/-- Helper: the `'1C…R'` label shape starts with `'1'`. -/
theorem lit1C_head (a : Nat) :
    ∃ c cs, ("1C" ++ natStr a ++ "R").data = c :: cs ∧ c ≠ 'h' ∧ c ≠ 'N' := by
  refine ⟨'1', 'C' :: ((natStr a).data ++ "R".data), ?_, by decide, by decide⟩
  have h1 : ("1C" : String).data = ['1', 'C'] := rfl
  simp [String.data_append, h1]

/-- Helper: the `'…C…R'` label shape starts with a digit. -/
theorem natStrCR_head (a b : Nat) :
    ∃ c cs, (natStr a ++ "C" ++ natStr b ++ "R").data = c :: cs ∧ c ≠ 'h' ∧ c ≠ 'N' := by
  obtain ⟨c, cs, hgo, h1, h2⟩ := natDigitsGo_head a a
  refine ⟨c, cs ++ "C".data ++ ((natStr b).data ++ "R".data), ?_, h1, h2⟩
  simp [natStr, String.data_append, hgo]

/-- Helper: every value of `find_relation_label` is a non-empty string whose
first character is neither `'h'` (so no label ever looks `'half-'`-marked on
its own) nor `'N'`. -/
theorem frl_head (me them : Nat) :
    ∃ c cs, (find_relation_label me them).data = c :: cs ∧ c ≠ 'h' ∧ c ≠ 'N' := by
  unfold find_relation_label
  split_ifs <;>
    first
    | exact ⟨_, _, rfl, by decide, by decide⟩
    | exact lit1C_head _
    | exact natStr_head _ _
    | exact natStrCR_head _ _
    | (refine gstr_head _ ?_ _; omega)
    | exact (False.elim (by omega))

/-- C9: the relationship-label function is total over all pairs of
non-negative generation distances: the `'N/A'` fallback is unreachable. -/
theorem c9_total_no_na : ∀ me them : Nat, find_relation_label me them ≠ "N/A" := by
  intro me them heq
  obtain ⟨c, cs, hd, _, hN⟩ := frl_head me them
  rw [heq] at hd
  have h2 : ("N/A" : String).data = ['N', '/', 'A'] := rfl
  rw [h2] at hd
  injection hd with h3 _
  exact hN h3.symm

/-- C8: the label emitted by `compute_relation` starts with `'half-'` exactly
when the record's two originating families differ. -/
theorem c8_half_iff (r : CommonRec) :
    StartsWith "half-" (compute_relation r) ↔ r.fam ≠ r.matchFam := by
  have h0 : ("" : String).data = ([] : List Char) := rfl
  have h5 : ("half-" : String).data = ['h', 'a', 'l', 'f', '-'] := rfl
  obtain ⟨c, cs, hd, hh, _⟩ :=
    frl_head r.matchPath.length r.path.length
  by_cases hf : r.fam = r.matchFam
  · constructor
    · intro hs
      exfalso
      unfold StartsWith at hs
      rw [h5] at hs
      simp only [compute_relation, hf, ne_eq, not_true_eq_false, if_neg,
        String.data_append, h0, List.nil_append, List.length_cons,
        List.length_nil, ite_false] at hs
      rw [hd] at hs
      simp [List.take] at hs
      exact hh hs.1
    · intro hne; exact absurd hf hne
  · constructor
    · intro _; exact hf
    · intro _
      unfold StartsWith compute_relation
      rw [if_pos hf, String.data_append, h5]
      simp [List.take]

/-- C10: the has-match flag of a family is `True` exactly when one of its
parent slots holds a DNA-matched individual; the family's children never
influence the flag. -/
theorem c10_fam_match_flag :
    ∀ (matchKeys : List String) (family : FamData),
      (does_fam_have_match matchKeys family = true ↔
        ∃ p, (family.wife = some p ∨ family.husb = some p) ∧ p ∈ matchKeys)
      ∧ ∀ ch, does_fam_have_match matchKeys ⟨family.wife, family.husb, ch⟩
          = does_fam_have_match matchKeys family := by
  intro mk family
  constructor
  · cases hw : family.wife <;> cases hh : family.husb <;>
      (simp [does_fam_have_match, hw, hh]; try aesop)
  · exact fun ch => rfl

/-- C6 (amended): the extractor accepts a note only when a second token is
present and is a `cm` unit marker (exactly `cm`, or `cm` followed by one of
`' '`, `'.'`, `','`, `';'`, `':'`); with the marker, commas are removed from
the leading token, the token is converted by Python `float()` semantics, a
non-negative finite value is rounded half-to-even to the nearest integer, a
negative value (including `-inf`) yields `None`, an unparseable token yields
`None`, and a positive infinity or NaN escapes as an uncaught exception. -/
theorem c6_extract_dna_cm_spec : ∀ note : String,
    ((dna_tokens note).length ≤ 1 → extract_dna_cm note = some none)
    ∧ (∀ t0 t1 rest, dna_tokens note = t0 :: t1 :: rest →
        (unit_ok t1 = false → extract_dna_cm note = some none)
        ∧ (unit_ok t1 = true →
            (float_of_string (t0.filter (fun c => decide (c ≠ ','))) = none →
              extract_dna_cm note = some none)
            ∧ (∀ n eff, float_of_string (t0.filter (fun c => decide (c ≠ ','))) =
                  some (PyFloat.finite n eff) →
                (n < 0 → extract_dna_cm note = some none)
                ∧ (0 ≤ n → extract_dna_cm note = some (some (pyRound n eff))))
            ∧ (float_of_string (t0.filter (fun c => decide (c ≠ ','))) =
                  some (PyFloat.inf true) → extract_dna_cm note = some none)
            ∧ (float_of_string (t0.filter (fun c => decide (c ≠ ','))) =
                  some (PyFloat.inf false) → extract_dna_cm note = none)
            ∧ (float_of_string (t0.filter (fun c => decide (c ≠ ','))) =
                  some PyFloat.nan → extract_dna_cm note = none))) := by
  intro note
  refine ⟨?_, ?_⟩
  · intro hlen
    cases htok : dna_tokens note with
    | nil => simp [extract_dna_cm, htok]
    | cons t0 rest0 =>
      cases rest0 with
      | nil => simp [extract_dna_cm, htok]
      | cons t1 rest =>
        rw [htok] at hlen
        simp at hlen
  · intro t0 t1 rest htok
    refine ⟨fun hu => by simp [extract_dna_cm, htok, hu], fun hu => ⟨?_, ?_, ?_, ?_, ?_⟩⟩
    · intro hp
      simp only [ne_eq, decide_not] at hp
      simp [extract_dna_cm, htok, hu, hp]
    · intro n eff hp
      simp only [ne_eq, decide_not] at hp
      refine ⟨fun hneg => by simp [extract_dna_cm, htok, hu, hp, hneg], ?_⟩
      intro hpos
      have hneg : ¬ (n < 0) := not_lt.mpr hpos
      simp [extract_dna_cm, htok, hu, hp, hneg]
    · intro hp
      simp only [ne_eq, decide_not] at hp
      simp [extract_dna_cm, htok, hu, hp]
    · intro hp
      simp only [ne_eq, decide_not] at hp
      simp [extract_dna_cm, htok, hu, hp]
    · intro hp
      simp only [ne_eq, decide_not] at hp
      simp [extract_dna_cm, htok, hu, hp]

set_option maxRecDepth 8000 in
/-- Witness for `c6_extract_dna_cm_spec`: a note with a thousands separator, a
fractional value, and the unit marker; `1234.5` is exactly representable as a
double and rounds half-to-even down to `1234`. -/
theorem c6_extract_dna_cm_spec_witness :
    extract_dna_cm "1,234.5 cm" = some (some 1234) := by
  have h := (c6_extract_dna_cm_spec "1,234.5 cm").2
    ['1', ',', '2', '3', '4', '.', '5'] ['c', 'm'] [] (by decide)
  have h2 := ((h.2 (by decide)).2.1 5429388417957888 (-42) (by decide)).2 (by decide)
  rw [h2]
  decide

/-! ### Dictionary lemmas -/

/-- A successful lookup is a membership. -/
theorem alookup_mem {α : Type} : ∀ (l : List (String × α)) k v,
    alookup l k = some v → (k, v) ∈ l := by
  intro l
  induction l with
  | nil => intro k v h; exact absurd h (by simp [alookup])
  | cons p rest ih =>
    obtain ⟨k0, v0⟩ := p
    intro k v h
    by_cases hk : k0 = k
    · subst hk
      simp [alookup] at h
      simp [h]
    · simp only [alookup, if_neg hk] at h
      exact List.mem_cons_of_mem _ (ih k v h)

/-- Updating then reading the same key gives the new value. -/
theorem alookup_aupdate_self {α : Type} : ∀ (m : List (String × α)) k v,
    alookup (aupdate m k v) k = some v := by
  intro m
  induction m with
  | nil => intro k v; simp [aupdate, alookup]
  | cons p rest ih =>
    obtain ⟨k0, v0⟩ := p
    intro k v
    by_cases hk : k0 = k
    · simp [aupdate, hk, alookup]
    · simp [aupdate, hk, alookup, ih]

/-- Updating one key leaves the others unchanged. -/
theorem alookup_aupdate_ne {α : Type} : ∀ (m : List (String × α)) k v k2,
    k ≠ k2 → alookup (aupdate m k v) k2 = alookup m k2 := by
  intro m
  induction m with
  | nil => intro k v k2 hne; simp [aupdate, alookup, fun h => hne h]
  | cons p rest ih =>
    obtain ⟨k0, v0⟩ := p
    intro k v k2 hne
    by_cases hk : k0 = k
    · subst hk
      simp [aupdate, alookup, fun h => hne h]
    · simp only [aupdate, if_neg hk, alookup]
      by_cases hk2 : k0 = k2
      · simp [hk2]
      · simp [hk2, ih k v k2 hne]

/-- Values present after an update were present before or are the new pair. -/
theorem aupdate_sound {α : Type} (m : List (String × α)) (a : String) (w : α)
    (k : String) (v : α) (h : alookup (aupdate m a w) k = some v) :
    alookup m k = some v ∨ (k = a ∧ v = w) := by
  by_cases hk : k = a
  · subst hk
    rw [alookup_aupdate_self] at h
    exact Or.inr ⟨rfl, (Option.some.injEq .. ▸ h).symm⟩
  · rw [alookup_aupdate_ne m a w k (fun he => hk he.symm)] at h
    exact Or.inl h

/-- `maybeUpdate` keeps the map unchanged when the existing entry is strictly
shorter. -/
theorem maybeUpdate_eq_keep (anc : AncMap) (a fam : String) (p : List String)
    (r : AncRec) (hl : alookup anc a = some r) (hlt : r.path.length < p.length) :
    maybeUpdate anc a fam p = anc := by
  unfold maybeUpdate
  rw [hl]
  dsimp only
  rw [if_pos hlt]

/-- `maybeUpdate` writes the offered record in every other case. -/
theorem maybeUpdate_eq_update (anc : AncMap) (a fam : String) (p : List String)
    (h : ∀ r, alookup anc a = some r → ¬ r.path.length < p.length) :
    maybeUpdate anc a fam p = aupdate anc a ⟨fam, p⟩ := by
  unfold maybeUpdate
  cases hl : alookup anc a with
  | none => dsimp only
  | some r =>
    dsimp only
    rw [if_neg (h r hl)]

/-- Keys present after `maybeUpdate` were present before or are the updated
key. -/
theorem maybeUpdate_keys (anc : AncMap) (a fam : String) (p : List String)
    (k : String) (h : (alookup (maybeUpdate anc a fam p) k).isSome) :
    (alookup anc k).isSome ∨ k = a := by
  by_cases hk : k = a
  · exact Or.inr hk
  · left
    cases hl : alookup anc a with
    | some r =>
      by_cases hlt : r.path.length < p.length
      · rwa [maybeUpdate_eq_keep anc a fam p r hl hlt] at h
      · rw [maybeUpdate_eq_update anc a fam p
              (fun r2 hr2 => by rw [hl] at hr2; injection hr2 with he; rw [← he]; exact hlt),
            alookup_aupdate_ne anc a _ k (fun he => hk he.symm)] at h
        exact h
    | none =>
      rw [maybeUpdate_eq_update anc a fam p
            (fun r2 hr2 => by rw [hl] at hr2; exact Option.noConfusion hr2),
          alookup_aupdate_ne anc a _ k (fun he => hk he.symm)] at h
      exact h

/-- `maybeUpdate` never lengthens an existing entry's path. -/
theorem maybeUpdate_mono (anc : AncMap) (a fam : String) (p : List String)
    (k : String) (v0 : AncRec) (h : alookup anc k = some v0) :
    ∃ v, alookup (maybeUpdate anc a fam p) k = some v
      ∧ v.path.length ≤ v0.path.length := by
  by_cases hk : k = a
  · subst hk
    by_cases hlt : v0.path.length < p.length
    · exact ⟨v0, by rw [maybeUpdate_eq_keep anc k fam p v0 h hlt]; exact h, le_refl _⟩
    · refine ⟨⟨fam, p⟩, ?_, by dsimp only; omega⟩
      rw [maybeUpdate_eq_update anc k fam p
            (fun r2 hr2 => by rw [h] at hr2; injection hr2 with he; rw [← he]; exact hlt),
          alookup_aupdate_self]
  · refine ⟨v0, ?_, le_refl _⟩
    cases hl : alookup anc a with
    | some r =>
      by_cases hlt : r.path.length < p.length
      · rw [maybeUpdate_eq_keep anc a fam p r hl hlt]; exact h
      · rw [maybeUpdate_eq_update anc a fam p
              (fun r2 hr2 => by rw [hl] at hr2; injection hr2 with he; rw [← he]; exact hlt),
            alookup_aupdate_ne anc a _ k (fun he => hk he.symm)]
        exact h
    | none =>
      rw [maybeUpdate_eq_update anc a fam p
            (fun r2 hr2 => by rw [hl] at hr2; exact Option.noConfusion hr2),
          alookup_aupdate_ne anc a _ k (fun he => hk he.symm)]
      exact h

/-- After `maybeUpdate` the updated key has an entry at most as long as the
offered path. -/
theorem maybeUpdate_self_le (anc : AncMap) (a fam : String) (p : List String) :
    ∃ v, alookup (maybeUpdate anc a fam p) a = some v
      ∧ v.path.length ≤ p.length := by
  cases hl : alookup anc a with
  | some r =>
    by_cases hlt : r.path.length < p.length
    · exact ⟨r, by rw [maybeUpdate_eq_keep anc a fam p r hl hlt]; exact hl, by omega⟩
    · refine ⟨⟨fam, p⟩, ?_, le_refl _⟩
      rw [maybeUpdate_eq_update anc a fam p
            (fun r2 hr2 => by rw [hl] at hr2; injection hr2 with he; rw [← he]; exact hlt),
          alookup_aupdate_self]
  | none =>
    refine ⟨⟨fam, p⟩, ?_, le_refl _⟩
    rw [maybeUpdate_eq_update anc a fam p
          (fun r2 hr2 => by rw [hl] at hr2; exact Option.noConfusion hr2),
        alookup_aupdate_self]

/-- Values present after `maybeUpdate` were present before or are the offered
record. -/
theorem maybeUpdate_sound (anc : AncMap) (a fam : String) (p : List String)
    (k : String) (v : AncRec) (h : alookup (maybeUpdate anc a fam p) k = some v) :
    alookup anc k = some v ∨ (k = a ∧ v = ⟨fam, p⟩) := by
  cases hl : alookup anc a with
  | some r =>
    by_cases hlt : r.path.length < p.length
    · rw [maybeUpdate_eq_keep anc a fam p r hl hlt] at h
      exact Or.inl h
    · rw [maybeUpdate_eq_update anc a fam p
            (fun r2 hr2 => by rw [hl] at hr2; injection hr2 with he; rw [← he]; exact hlt)] at h
      exact aupdate_sound anc a _ k v h
  | none =>
    rw [maybeUpdate_eq_update anc a fam p
          (fun r2 hr2 => by rw [hl] at hr2; exact Option.noConfusion hr2)] at h
    exact aupdate_sound anc a _ k v h

/-- The tie rule at an update point: an offered path of the same length as the
existing entry's overwrites it (the later-seen chain wins). -/
theorem maybeUpdate_tie (anc : AncMap) (a fam : String) (p : List String)
    (r : AncRec) (hl : alookup anc a = some r) (hlen : r.path.length = p.length) :
    alookup (maybeUpdate anc a fam p) a = some ⟨fam, p⟩ := by
  rw [maybeUpdate_eq_update anc a fam p
        (fun r2 hr2 => by rw [hl] at hr2; injection hr2 with he; rw [← he]; omega),
      alookup_aupdate_self]

/-! ### Termination of the ancestor resolver on acyclic stores (C2) -/

/-- Extracting the rank bound of `ParentRank` at one individual. -/
theorem pr_bound (st : Store) (h : String → Nat) (hr : ParentRank st h)
    (i fam : String) (hlk : alookup st.indi i = some (getIndi st i))
    (hfc : (getIndi st i).famc.head? = some fam) :
    (∀ q, (getFam st fam).wife = some q → h q < h i)
    ∧ (∀ q, (getFam st fam).husb = some q → h q < h i) := by
  have hmem : (i, getIndi st i) ∈ st.indi := alookup_mem _ _ _ hlk
  unfold ParentRank ParentRankB at hr
  rw [List.all_eq_true] at hr
  have h2 := hr (i, getIndi st i) hmem
  dsimp only at h2
  rw [hfc] at h2
  rw [Bool.and_eq_true] at h2
  obtain ⟨hw, hh⟩ := h2
  constructor
  · intro q hq
    rw [hq] at hw
    exact of_decide_eq_true hw
  · intro q hq
    rw [hq] at hh
    exact of_decide_eq_true hh

/-- An individual whose `famc` is non-empty has a store entry. -/
theorem getIndi_lookup (st : Store) (i fam : String) (rest : List String)
    (hfc : (getIndi st i).famc = fam :: rest) :
    alookup st.indi i = some (getIndi st i) := by
  cases hl : alookup st.indi i with
  | none =>
    exfalso
    rw [getIndi, hl] at hfc
    exact List.noConfusion hfc
  | some d => simp [getIndi, hl]

/-- With an acyclicity rank, fuel exceeding the subject's rank is enough for
`find_ancestors` to return. -/
theorem fa_terminates (st : Store) (h : String → Nat) (hr : ParentRank st h) :
    ∀ fuel i path anc, h i < fuel →
      ∃ m, find_ancestors st fuel i path anc = some m := by
  intro fuel
  induction fuel with
  | zero => intro i path anc hfi; omega
  | succ f ih =>
    intro i path anc hfi
    cases hfc : (getIndi st i).famc with
    | nil => exact ⟨anc, by simp [find_ancestors, hfc]⟩
    | cons fam rest =>
      have hlk := getIndi_lookup st i fam rest hfc
      have hb := pr_bound st h hr i fam hlk (by rw [hfc]; rfl)
      cases hw : (getFam st fam).wife with
      | none =>
        cases hh : (getFam st fam).husb with
        | none => exact ⟨anc, by simp [find_ancestors, hfc, hw, hh]⟩
        | some b =>
          have hbb : h b < f := by have := hb.2 b hh; omega
          obtain ⟨m, hm⟩ := ih b (path ++ [fam]) (maybeUpdate anc b fam (path ++ [fam])) hbb
          exact ⟨m, by simp [find_ancestors, hfc, hw, hh, hm]⟩
      | some a =>
        have haa : h a < f := by have := hb.1 a hw; omega
        obtain ⟨m1, hm1⟩ := ih a (path ++ [fam]) (maybeUpdate anc a fam (path ++ [fam])) haa
        cases hh : (getFam st fam).husb with
        | none => exact ⟨m1, by simp [find_ancestors, hfc, hw, hm1, hh]⟩
        | some b =>
          have hbb : h b < f := by have := hb.2 b hh; omega
          obtain ⟨m2, hm2⟩ := ih b (path ++ [fam]) (maybeUpdate m1 b fam (path ++ [fam])) hbb
          exact ⟨m2, by simp [find_ancestors, hfc, hw, hm1, hh, hm2]⟩

/-- Every key of the computed ancestor map was in the incoming accumulator or
ranks strictly below the subject: the subject never records itself. -/
theorem fa_keys (st : Store) (h : String → Nat) (hr : ParentRank st h) :
    ∀ fuel i path anc m, find_ancestors st fuel i path anc = some m →
      ∀ k, (alookup m k).isSome → (alookup anc k).isSome ∨ h k < h i := by
  intro fuel
  induction fuel with
  | zero => intro i path anc m hm; exact absurd hm (by simp [find_ancestors])
  | succ f ih =>
    intro i path anc m hm k hk
    cases hfc : (getIndi st i).famc with
    | nil =>
      simp only [find_ancestors, hfc] at hm
      injection hm with hm
      rw [← hm] at hk
      exact Or.inl hk
    | cons fam rest =>
      have hlk := getIndi_lookup st i fam rest hfc
      have hb := pr_bound st h hr i fam hlk (by rw [hfc]; rfl)
      cases hw : (getFam st fam).wife with
      | none =>
        cases hh : (getFam st fam).husb with
        | none =>
          simp only [find_ancestors, hfc, hw, hh] at hm
          injection hm with hm
          rw [← hm] at hk
          exact Or.inl hk
        | some b =>
          simp only [find_ancestors, hfc, hw, hh] at hm
          rcases ih b _ _ m hm k hk with h1 | h2
          · rcases maybeUpdate_keys anc b fam (path ++ [fam]) k h1 with h3 | h3
            · exact Or.inl h3
            · right; rw [h3]; exact hb.2 b hh
          · right
            have := hb.2 b hh
            omega
      | some a =>
        simp only [find_ancestors, hfc, hw] at hm
        cases hm1 : find_ancestors st f a (path ++ [fam])
            (maybeUpdate anc a fam (path ++ [fam])) with
        | none => rw [hm1] at hm; exact absurd hm (by simp)
        | some anc1 =>
          rw [hm1] at hm
          dsimp only at hm
          have step1 : ∀ k2, (alookup anc1 k2).isSome →
              (alookup anc k2).isSome ∨ h k2 < h i := by
            intro k2 hk2
            rcases ih a _ _ anc1 hm1 k2 hk2 with h1 | h2
            · rcases maybeUpdate_keys anc a fam (path ++ [fam]) k2 h1 with h3 | h3
              · exact Or.inl h3
              · right; rw [h3]; exact hb.1 a hw
            · right
              have := hb.1 a hw
              omega
          cases hh : (getFam st fam).husb with
          | none =>
            rw [hh] at hm
            injection hm with hm
            rw [← hm] at hk
            exact step1 k hk
          | some b =>
            rw [hh] at hm
            rcases ih b _ _ m hm k hk with h1 | h2
            · rcases maybeUpdate_keys anc1 b fam (path ++ [fam]) k h1 with h3 | h3
              · exact step1 k h3
              · right; rw [h3]; exact hb.2 b hh
            · right
              have := hb.2 b hh
              omega

/-- C2 (amended): the resolver has no cycle guard, so termination holds only
on acyclic inputs: for any store admitting a parent rank (each parent slot of
a stored individual's authoritative child-of family ranks strictly lower),
`find_ancestors( X, [], dict() )` returns once the fuel exceeds `X`'s rank,
and the resulting ancestor map has no entry for `X` itself. -/
theorem c2_find_ancestors_acyclic (st : Store) (h : String → Nat) (X : String)
    (hr : ParentRank st h) :
    (find_ancestors st (h X + 1) X [] []).isSome = true
    ∧ alookup (resultMap st (h X + 1) X) X = none := by
  obtain ⟨m, hm⟩ := fa_terminates st h hr (h X + 1) X [] [] (by omega)
  constructor
  · rw [hm]; rfl
  · rw [resultMap, hm]
    simp only [Option.getD_some]
    cases hx : alookup m X with
    | none => rfl
    | some v =>
      exfalso
      rcases fa_keys st h hr (h X + 1) X [] [] m hm X (by rw [hx]; rfl) with h1 | h2
      · simp [alookup] at h1
      · omega

/-- Witness for `c2_find_ancestors_acyclic` on the concrete acyclic one-link
store. -/
theorem c2_find_ancestors_acyclic_witness :
    (find_ancestors c2aStore (c2rank "a" + 1) "a" [] []).isSome = true
    ∧ alookup (resultMap c2aStore (c2rank "a" + 1) "a") "a" = none :=
  c2_find_ancestors_acyclic c2aStore c2rank "a" (by decide)

/-! ### Shortest-path property of the ancestor resolver (C5) -/

/-- Entries present before a `find_ancestors` run survive it with a path at
most as long. -/
theorem fa_mono (st : Store) :
    ∀ fuel i path anc m, find_ancestors st fuel i path anc = some m →
      ∀ k v0, alookup anc k = some v0 →
        ∃ v, alookup m k = some v ∧ v.path.length ≤ v0.path.length := by
  intro fuel
  induction fuel with
  | zero => intro i path anc m hm; exact absurd hm (by simp [find_ancestors])
  | succ f ih =>
    intro i path anc m hm k v0 h0
    cases hfc : (getIndi st i).famc with
    | nil =>
      simp only [find_ancestors, hfc] at hm
      injection hm with hm
      rw [← hm]
      exact ⟨v0, h0, le_refl _⟩
    | cons fam rest =>
      cases hw : (getFam st fam).wife with
      | none =>
        cases hh : (getFam st fam).husb with
        | none =>
          simp only [find_ancestors, hfc, hw, hh] at hm
          injection hm with hm
          rw [← hm]
          exact ⟨v0, h0, le_refl _⟩
        | some b =>
          simp only [find_ancestors, hfc, hw, hh] at hm
          obtain ⟨v1, hv1, hl1⟩ := maybeUpdate_mono anc b fam (path ++ [fam]) k v0 h0
          obtain ⟨v, hv, hl⟩ := ih b _ _ m hm k v1 hv1
          exact ⟨v, hv, le_trans hl hl1⟩
      | some a =>
        simp only [find_ancestors, hfc, hw] at hm
        cases hm1 : find_ancestors st f a (path ++ [fam])
            (maybeUpdate anc a fam (path ++ [fam])) with
        | none => rw [hm1] at hm; exact absurd hm (by simp)
        | some anc1 =>
          rw [hm1] at hm
          dsimp only at hm
          obtain ⟨v1, hv1, hl1⟩ := maybeUpdate_mono anc a fam (path ++ [fam]) k v0 h0
          obtain ⟨v2, hv2, hl2⟩ := ih a _ _ anc1 hm1 k v1 hv1
          cases hh : (getFam st fam).husb with
          | none =>
            rw [hh] at hm
            injection hm with hm
            rw [← hm]
            exact ⟨v2, hv2, le_trans hl2 hl1⟩
          | some b =>
            rw [hh] at hm
            obtain ⟨v3, hv3, hl3⟩ := maybeUpdate_mono anc1 b fam (path ++ [fam]) k v2 hv2
            obtain ⟨v, hv, hl⟩ := ih b _ _ m hm k v3 hv3
            exact ⟨v, hv, by omega⟩

/-- Every entry of the computed map was already in the accumulator or records
a genuine parent chain prefixed by the incoming path. -/
theorem fa_sound (st : Store) :
    ∀ fuel i path anc m, find_ancestors st fuel i path anc = some m →
      ∀ k v, alookup m k = some v →
        alookup anc k = some v
        ∨ ∃ suffix, ChainTo st i suffix k ∧ v.path = path ++ suffix := by
  intro fuel
  induction fuel with
  | zero => intro i path anc m hm; exact absurd hm (by simp [find_ancestors])
  | succ f ih =>
    intro i path anc m hm k v hv
    cases hfc : (getIndi st i).famc with
    | nil =>
      simp only [find_ancestors, hfc] at hm
      injection hm with hm
      rw [← hm] at hv
      exact Or.inl hv
    | cons fam rest =>
      cases hw : (getFam st fam).wife with
      | none =>
        cases hh : (getFam st fam).husb with
        | none =>
          simp only [find_ancestors, hfc, hw, hh] at hm
          injection hm with hm
          rw [← hm] at hv
          exact Or.inl hv
        | some b =>
          simp only [find_ancestors, hfc, hw, hh] at hm
          rcases ih b _ _ m hm k v hv with h1 | ⟨suffix, hch, hp⟩
          · rcases maybeUpdate_sound anc b fam (path ++ [fam]) k v h1 with h2 | ⟨hk, hv2⟩
            · exact Or.inl h2
            · refine Or.inr ⟨[fam], ?_, by rw [hv2]⟩
              rw [hk]
              exact ChainTo.one i fam rest b hfc (Or.inr hh)
          · refine Or.inr ⟨fam :: suffix, ChainTo.cons i fam rest b suffix k hfc (Or.inr hh) hch, ?_⟩
            rw [hp]
            simp
      | some a =>
        simp only [find_ancestors, hfc, hw] at hm
        cases hm1 : find_ancestors st f a (path ++ [fam])
            (maybeUpdate anc a fam (path ++ [fam])) with
        | none => rw [hm1] at hm; exact absurd hm (by simp)
        | some anc1 =>
          rw [hm1] at hm
          dsimp only at hm
          have step1 : ∀ k2 v2, alookup anc1 k2 = some v2 →
              alookup anc k2 = some v2
              ∨ ∃ suffix, ChainTo st i suffix k2 ∧ v2.path = path ++ suffix := by
            intro k2 v2 hv2
            rcases ih a _ _ anc1 hm1 k2 v2 hv2 with h1 | ⟨suffix, hch, hp⟩
            · rcases maybeUpdate_sound anc a fam (path ++ [fam]) k2 v2 h1 with h2 | ⟨hk, hv3⟩
              · exact Or.inl h2
              · refine Or.inr ⟨[fam], ?_, by rw [hv3]⟩
                rw [hk]
                exact ChainTo.one i fam rest a hfc (Or.inl hw)
            · refine Or.inr
                ⟨fam :: suffix, ChainTo.cons i fam rest a suffix k2 hfc (Or.inl hw) hch, ?_⟩
              rw [hp]
              simp
          cases hh : (getFam st fam).husb with
          | none =>
            rw [hh] at hm
            injection hm with hm
            rw [← hm] at hv
            exact step1 k v hv
          | some b =>
            rw [hh] at hm
            rcases ih b _ _ m hm k v hv with h1 | ⟨suffix, hch, hp⟩
            · rcases maybeUpdate_sound anc1 b fam (path ++ [fam]) k v h1 with h2 | ⟨hk, hv2⟩
              · exact step1 k v h2
              · refine Or.inr ⟨[fam], ?_, by rw [hv2]⟩
                rw [hk]
                exact ChainTo.one i fam rest b hfc (Or.inr hh)
            · refine Or.inr
                ⟨fam :: suffix, ChainTo.cons i fam rest b suffix k hfc (Or.inr hh) hch, ?_⟩
              rw [hp]
              simp

/-- Every genuine parent chain is explored: after a successful run its target
has an entry at most as long as the chain (plus the incoming path prefix). -/
theorem fa_complete (st : Store) :
    ∀ fuel i path anc m, find_ancestors st fuel i path anc = some m →
      ∀ k suffix, ChainTo st i suffix k →
        ∃ v, alookup m k = some v ∧ v.path.length ≤ path.length + suffix.length := by
  intro fuel
  induction fuel with
  | zero => intro i path anc m hm; exact absurd hm (by simp [find_ancestors])
  | succ f ih =>
    intro i path anc m hm k suffix hch
    revert hm
    cases hch with
    | one _ fam rest _ hfc hpart =>
      intro hm
      simp only [find_ancestors, hfc] at hm
      have hsl : ([fam] : List String).length = 1 := rfl
      have hpl : (path ++ [fam]).length = path.length + 1 := by simp
      rcases hpart with hw | hh
      · rw [hw] at hm
        dsimp only at hm
        obtain ⟨v1, hv1, hl1⟩ := maybeUpdate_self_le anc k fam (path ++ [fam])
        cases hm1 : find_ancestors st f k (path ++ [fam])
            (maybeUpdate anc k fam (path ++ [fam])) with
        | none => rw [hm1] at hm; exact absurd hm (by simp)
        | some anc1 =>
          rw [hm1] at hm
          dsimp only at hm
          obtain ⟨v2, hv2, hl2⟩ := fa_mono st f k _ _ anc1 hm1 k v1 hv1
          cases hh2 : (getFam st fam).husb with
          | none =>
            rw [hh2] at hm
            injection hm with hm
            rw [← hm]
            exact ⟨v2, hv2, by omega⟩
          | some b =>
            rw [hh2] at hm
            dsimp only at hm
            obtain ⟨v3, hv3, hl3⟩ := maybeUpdate_mono anc1 b fam (path ++ [fam]) k v2 hv2
            obtain ⟨v, hv, hl⟩ := fa_mono st f b _ _ m hm k v3 hv3
            exact ⟨v, hv, by omega⟩
      · cases hw : (getFam st fam).wife with
        | none =>
          rw [hw, hh] at hm
          dsimp only at hm
          obtain ⟨v1, hv1, hl1⟩ := maybeUpdate_self_le anc k fam (path ++ [fam])
          obtain ⟨v, hv, hl⟩ := fa_mono st f k _ _ m hm k v1 hv1
          exact ⟨v, hv, by omega⟩
        | some a =>
          rw [hw] at hm
          dsimp only at hm
          cases hm1 : find_ancestors st f a (path ++ [fam])
              (maybeUpdate anc a fam (path ++ [fam])) with
          | none => rw [hm1] at hm; exact absurd hm (by simp)
          | some anc1 =>
            rw [hm1] at hm
            dsimp only at hm
            rw [hh] at hm
            dsimp only at hm
            obtain ⟨v1, hv1, hl1⟩ := maybeUpdate_self_le anc1 k fam (path ++ [fam])
            obtain ⟨v, hv, hl⟩ := fa_mono st f k _ _ m hm k v1 hv1
            exact ⟨v, hv, by omega⟩
    | cons _ fam rest p fams _ hfc hpart hch2 =>
      intro hm
      simp only [find_ancestors, hfc] at hm
      have hcl : (fam :: fams).length = fams.length + 1 := rfl
      have hpl : (path ++ [fam]).length = path.length + 1 := by simp
      rcases hpart with hw | hh
      · rw [hw] at hm
        dsimp only at hm
        cases hm1 : find_ancestors st f p (path ++ [fam])
            (maybeUpdate anc p fam (path ++ [fam])) with
        | none => rw [hm1] at hm; exact absurd hm (by simp)
        | some anc1 =>
          rw [hm1] at hm
          dsimp only at hm
          obtain ⟨v2, hv2, hl2⟩ := ih p _ _ anc1 hm1 k fams hch2
          cases hh2 : (getFam st fam).husb with
          | none =>
            rw [hh2] at hm
            injection hm with hm
            rw [← hm]
            exact ⟨v2, hv2, by omega⟩
          | some b =>
            rw [hh2] at hm
            dsimp only at hm
            obtain ⟨v3, hv3, hl3⟩ := maybeUpdate_mono anc1 b fam (path ++ [fam]) k v2 hv2
            obtain ⟨v, hv, hl⟩ := fa_mono st f b _ _ m hm k v3 hv3
            exact ⟨v, hv, by omega⟩
      · cases hw : (getFam st fam).wife with
        | none =>
          rw [hw, hh] at hm
          dsimp only at hm
          obtain ⟨v, hv, hl⟩ := ih p _ _ m hm k fams hch2
          exact ⟨v, hv, by omega⟩
        | some a =>
          rw [hw] at hm
          dsimp only at hm
          cases hm1 : find_ancestors st f a (path ++ [fam])
              (maybeUpdate anc a fam (path ++ [fam])) with
          | none => rw [hm1] at hm; exact absurd hm (by simp)
          | some anc1 =>
            rw [hm1] at hm
            dsimp only at hm
            rw [hh] at hm
            dsimp only at hm
            obtain ⟨v, hv, hl⟩ := ih p _ _ m hm k fams hch2
            exact ⟨v, hv, by omega⟩

/-- C5 (amended): every retained ancestor entry is a genuine parent chain of
minimal length among all chains reaching that ancestor (so its length is the
generation distance); when a chain of equal length is offered later, the
update step overwrites, so the last-seen chain is retained, not the
first-seen one. -/
theorem c5_shortest_path (st : Store) (fuel : Nat) (X : String) (m : AncMap)
    (hm : find_ancestors st fuel X [] [] = some m) :
    (∀ A v, alookup m A = some v →
      ChainTo st X v.path A ∧ ∀ c, ChainTo st X c A → v.path.length ≤ c.length)
    ∧ ∀ anc a fam p r, alookup anc a = some r → r.path.length = p.length →
        alookup (maybeUpdate anc a fam p) a = some ⟨fam, p⟩ := by
  constructor
  · intro A v hv
    constructor
    · rcases fa_sound st fuel X [] [] m hm A v hv with h1 | ⟨suffix, hch, hp⟩
      · exact absurd h1 (by simp [alookup])
      · have hps : v.path = suffix := by simpa using hp
        rw [hps]
        exact hch
    · intro c hch
      obtain ⟨v2, hv2, hl⟩ := fa_complete st fuel X [] [] m hm A c hch
      rw [hv] at hv2
      injection hv2 with he
      rw [he]
      simpa using hl
  · exact fun anc a fam p r => maybeUpdate_tie anc a fam p r

/-- Witness for `c5_shortest_path` on the concrete pedigree-collapse store:
the retained entry for `G` is the husband-side chain, whose length is minimal
(equal to the wife-side chain's). -/
theorem c5_shortest_path_witness :
    alookup c5map "G" = some ⟨"FQ", ["F1", "FQ"]⟩
    ∧ (⟨"FQ", ["F1", "FQ"]⟩ : AncRec).path.length ≤ (["F1", "FP"] : List String).length := by
  have h := c5_shortest_path c5store 10 "X" c5map (by decide)
  have hch : ChainTo c5store "X" ["F1", "FP"] "G" :=
    ChainTo.cons "X" "F1" [] "P" ["FP"] "G" (by decide) (Or.inl (by decide))
      (ChainTo.one "P" "FP" [] "G" (by decide) (Or.inl (by decide)))
  exact ⟨by decide, (h.1 "G" ⟨"FQ", ["F1", "FQ"]⟩ (by decide)).2 ["F1", "FP"] hch⟩

/-! ### The collateral-ancestor selection loop (C3, C4) -/

/-- Invariant of `collateral_loop`: relative to a state whose held candidate
has length equal to the running minimum, the returned record is the held
candidate or a genuine common entry of the remaining list; its length is at
most the running minimum and at most every remaining common candidate's; and
whenever a family-equal common candidate exists at the returned length (in the
list or as the held candidate), the returned record is family-equal. -/
theorem cl_lemma (base : AncMap) :
    ∀ (l : List (String × AncRec)) (fl : Nat) (res : Option CommonRec) (r : CommonRec),
      collateral_loop base l fl res = some r →
      (∀ r0, res = some r0 → r0.path.length = fl) →
      (res = some r ∨ CommonEntry base l r)
      ∧ (r.path.length ≤ fl
         ∧ ∀ a e br, (a, e) ∈ l → alookup base a = some br →
             r.path.length ≤ e.path.length)
      ∧ (∀ a e br, (a, e) ∈ l → alookup base a = some br →
           e.path.length = r.path.length → e.fam = br.fam → r.fam = r.matchFam)
      ∧ (∀ r0, res = some r0 → r0.path.length = r.path.length →
           r0.fam = r0.matchFam → r.fam = r.matchFam) := by
  intro l
  induction l with
  | nil =>
    intro fl res r hloop hres
    have hres2 : res = some r := hloop
    refine ⟨Or.inl hres2, ⟨?_, ?_⟩, ?_, ?_⟩
    · rw [hres r hres2]
    · intro a e br hmem; exact absurd hmem (List.not_mem_nil _)
    · intro a e br hmem; exact absurd hmem (List.not_mem_nil _)
    · intro r0 h0 hlen hfam
      rw [hres2] at h0
      injection h0 with h0
      rw [h0]
      exact hfam
  | cons hd tl ih =>
    obtain ⟨a, rcd⟩ := hd
    intro fl res r hloop hres
    simp only [collateral_loop] at hloop
    cases hb : alookup base a with
    | none =>
      rw [hb] at hloop
      dsimp only at hloop
      obtain ⟨hA, ⟨hB1, hB2⟩, hC1, hC2⟩ := ih fl res r hloop hres
      refine ⟨?_, ⟨hB1, ?_⟩, ?_, hC2⟩
      · rcases hA with hA | hA
        · exact Or.inl hA
        · obtain ⟨e, b2, hmem, hlk, hf⟩ := hA
          exact Or.inr ⟨e, b2, List.mem_cons_of_mem _ hmem, hlk, hf⟩
      · intro a2 e br2 hmem hlk
        rcases List.mem_cons.mp hmem with heq | hmem2
        · injection heq with ha2 he
          exfalso
          rw [ha2, hb] at hlk
          exact Option.noConfusion hlk
        · exact hB2 a2 e br2 hmem2 hlk
      · intro a2 e br2 hmem hlk hlen hfam
        rcases List.mem_cons.mp hmem with heq | hmem2
        · injection heq with ha2 he
          exfalso
          rw [ha2, hb] at hlk
          exact Option.noConfusion hlk
        · exact hC1 a2 e br2 hmem2 hlk hlen hfam
    | some br =>
      rw [hb] at hloop
      dsimp only at hloop
      by_cases h1 : rcd.path.length = fl
      · rw [if_pos h1] at hloop
        by_cases h2 : rcd.fam = br.fam
        · rw [if_pos h2] at hloop
          have hres1 : ∀ r0,
              (some (⟨a, rcd.fam, rcd.path, br.fam, br.path⟩ : CommonRec)) = some r0 →
              r0.path.length = fl := by
            intro r0 h0
            injection h0 with h0
            rw [← h0]
            exact h1
          obtain ⟨hA, ⟨hB1, hB2⟩, hC1, hC2⟩ := ih fl _ r hloop hres1
          have hhead : CommonEntry base ((a, rcd) :: tl)
              (⟨a, rcd.fam, rcd.path, br.fam, br.path⟩ : CommonRec) :=
            ⟨rcd, br, List.mem_cons_self _ _, hb, rfl, rfl, rfl, rfl⟩
          refine ⟨?_, ⟨hB1, ?_⟩, ?_, ?_⟩
          · rcases hA with hA | hA
            · injection hA with hA
              rw [hA] at hhead
              exact Or.inr hhead
            · obtain ⟨e, b2, hmem, hlk, hf⟩ := hA
              exact Or.inr ⟨e, b2, List.mem_cons_of_mem _ hmem, hlk, hf⟩
          · intro a2 e br2 hmem hlk
            rcases List.mem_cons.mp hmem with heq | hmem2
            · injection heq with ha2 he
              rw [he, h1]
              exact hB1
            · exact hB2 a2 e br2 hmem2 hlk
          · intro a2 e br2 hmem hlk hlen hfam
            rcases List.mem_cons.mp hmem with heq | hmem2
            · injection heq with ha2 he
              refine hC2 ⟨a, rcd.fam, rcd.path, br.fam, br.path⟩ rfl ?_ h2
              dsimp only
              rw [← he]
              exact hlen
            · exact hC1 a2 e br2 hmem2 hlk hlen hfam
          · intro r0 h0 hlen hfam
            refine hC2 ⟨a, rcd.fam, rcd.path, br.fam, br.path⟩ rfl ?_ h2
            have h5 := hres r0 h0
            dsimp only
            omega
        · rw [if_neg h2] at hloop
          obtain ⟨hA, ⟨hB1, hB2⟩, hC1, hC2⟩ := ih fl res r hloop hres
          refine ⟨?_, ⟨hB1, ?_⟩, ?_, hC2⟩
          · rcases hA with hA | hA
            · exact Or.inl hA
            · obtain ⟨e, b2, hmem, hlk, hf⟩ := hA
              exact Or.inr ⟨e, b2, List.mem_cons_of_mem _ hmem, hlk, hf⟩
          · intro a2 e br2 hmem hlk
            rcases List.mem_cons.mp hmem with heq | hmem2
            · injection heq with ha2 he
              rw [he, h1]
              exact hB1
            · exact hB2 a2 e br2 hmem2 hlk
          · intro a2 e br2 hmem hlk hlen hfam
            rcases List.mem_cons.mp hmem with heq | hmem2
            · injection heq with ha2 he
              exfalso
              rw [ha2, hb] at hlk
              injection hlk with hlk
              rw [he] at hfam
              rw [← hlk] at hfam
              exact h2 hfam
            · exact hC1 a2 e br2 hmem2 hlk hlen hfam
      · rw [if_neg h1] at hloop
        by_cases h3 : rcd.path.length < fl
        · rw [if_pos h3] at hloop
          have hres1 : ∀ r0,
              (some (⟨a, rcd.fam, rcd.path, br.fam, br.path⟩ : CommonRec)) = some r0 →
              r0.path.length = rcd.path.length := by
            intro r0 h0
            injection h0 with h0
            rw [← h0]
          obtain ⟨hA, ⟨hB1, hB2⟩, hC1, hC2⟩ := ih rcd.path.length _ r hloop hres1
          have hhead : CommonEntry base ((a, rcd) :: tl)
              (⟨a, rcd.fam, rcd.path, br.fam, br.path⟩ : CommonRec) :=
            ⟨rcd, br, List.mem_cons_self _ _, hb, rfl, rfl, rfl, rfl⟩
          refine ⟨?_, ⟨by omega, ?_⟩, ?_, ?_⟩
          · rcases hA with hA | hA
            · injection hA with hA
              rw [hA] at hhead
              exact Or.inr hhead
            · obtain ⟨e, b2, hmem, hlk, hf⟩ := hA
              exact Or.inr ⟨e, b2, List.mem_cons_of_mem _ hmem, hlk, hf⟩
          · intro a2 e br2 hmem hlk
            rcases List.mem_cons.mp hmem with heq | hmem2
            · injection heq with ha2 he
              rw [he]
              exact hB1
            · exact hB2 a2 e br2 hmem2 hlk
          · intro a2 e br2 hmem hlk hlen hfam
            rcases List.mem_cons.mp hmem with heq | hmem2
            · injection heq with ha2 he
              refine hC2 ⟨a, rcd.fam, rcd.path, br.fam, br.path⟩ rfl ?_ ?_
              · dsimp only
                rw [← he]
                exact hlen
              · rw [ha2, hb] at hlk
                injection hlk with hlk
                rw [he] at hfam
                rw [← hlk] at hfam
                exact hfam
            · exact hC1 a2 e br2 hmem2 hlk hlen hfam
          · intro r0 h0 hlen hfam
            exfalso
            have h5 := hres r0 h0
            omega
        · rw [if_neg h3] at hloop
          obtain ⟨hA, ⟨hB1, hB2⟩, hC1, hC2⟩ := ih fl res r hloop hres
          refine ⟨?_, ⟨hB1, ?_⟩, ?_, hC2⟩
          · rcases hA with hA | hA
            · exact Or.inl hA
            · obtain ⟨e, b2, hmem, hlk, hf⟩ := hA
              exact Or.inr ⟨e, b2, List.mem_cons_of_mem _ hmem, hlk, hf⟩
          · intro a2 e br2 hmem hlk
            rcases List.mem_cons.mp hmem with heq | hmem2
            · injection heq with ha2 he
              rw [he]
              omega
            · exact hB2 a2 e br2 hmem2 hlk
          · intro a2 e br2 hmem hlk hlen hfam
            rcases List.mem_cons.mp hmem with heq | hmem2
            · injection heq with ha2 he
              exfalso
              rw [he] at hlen
              omega
            · exact hC1 a2 e br2 hmem2 hlk hlen hfam

/-- C3 (amended): in the collateral case the record returned by
`find_common_ancestor` is a genuine common ancestor of the two maps whose
MATCH-side path length (`len(ancestors[ancestor]['path'])`, held in the
record's `path` field) is minimal among all common ancestors — the
minimization is on the match side, not the reference side — and on exact ties
in that length a candidate whose two originating families agree is preferred
over a half-relation candidate. -/
theorem c3_collateral_min_matchside (st : Store) (fuel : Nat)
    (indi base_person : String) (base_ancestors anc : AncMap) (r : CommonRec)
    (h1 : find_ancestors st fuel indi [] [] = some anc)
    (h2 : alookup anc base_person = none)
    (h3 : alookup base_ancestors indi = none)
    (h4 : find_common_ancestor st fuel indi base_person base_ancestors = some (some r)) :
    CommonEntry base_ancestors anc r
    ∧ (∀ a e br, (a, e) ∈ anc → alookup base_ancestors a = some br →
        r.path.length ≤ e.path.length)
    ∧ (∀ a e br, (a, e) ∈ anc → alookup base_ancestors a = some br →
        e.path.length = r.path.length → e.fam = br.fam → r.fam = r.matchFam) := by
  unfold find_common_ancestor at h4
  rw [h1] at h4
  dsimp only at h4
  rw [h2] at h4
  dsimp only at h4
  rw [h3] at h4
  dsimp only at h4
  injection h4 with h4
  obtain ⟨hA, ⟨hB1, hB2⟩, hC1, hC2⟩ :=
    cl_lemma base_ancestors anc 1000000 none r h4 (fun r0 h0 => Option.noConfusion h0)
  rcases hA with hA | hA
  · exact absurd hA (by simp)
  · exact ⟨hA, hB2, hC1⟩

/-- Witness for `c3_collateral_min_matchside` on the concrete store: the
returned record for the match `M` against the reference `me` is the genuine
common entry for ancestor `A`. -/
theorem c3_collateral_min_matchside_witness :
    CommonEntry c3base c3anc ⟨"A", "FX", ["FX"], "FC", ["FM", "FC"]⟩ :=
  (c3_collateral_min_matchside c3store 10 "M" "me" c3base c3anc
      ⟨"A", "FX", ["FX"], "FC", ["FM", "FC"]⟩
      (by decide) (by decide) (by decide) (by decide)).1

/-- C4 (amended): in every non-empty common-ancestor record, `path` and `fam`
hold the MATCH side (the family/path through which the match descends from
the ancestor, drawn from the match's own ancestor map) while `match-path` and
`match-fam` hold the REFERENCE side (drawn from the reference's ancestor
map) — the opposite of the claim.  In the two direct-line cases the record is
pinned exactly; in the collateral case the fields come from the two maps'
entries for the chosen ancestor. -/
theorem c4_fields_swapped (st : Store) (fuel : Nat)
    (indi base_person : String) (base_ancestors anc : AncMap) (r : CommonRec)
    (h1 : find_ancestors st fuel indi [] [] = some anc)
    (h4 : find_common_ancestor st fuel indi base_person base_ancestors = some (some r)) :
    (r = (match alookup anc base_person with
          | some e => (⟨base_person, e.fam, e.path, e.fam, []⟩ : CommonRec)
          | none =>
            match alookup base_ancestors indi with
            | some e => (⟨indi, e.fam, [], e.fam, e.path⟩ : CommonRec)
            | none => r))
    ∧ (alookup anc base_person = none → alookup base_ancestors indi = none →
        CommonEntry base_ancestors anc r) := by
  unfold find_common_ancestor at h4
  rw [h1] at h4
  dsimp only at h4
  cases hbp : alookup anc base_person with
  | some e =>
    rw [hbp] at h4
    dsimp only at h4
    injection h4 with h4
    injection h4 with h4
    constructor
    · rw [← h4]
    · intro hn hn2
      exact Option.noConfusion hn
  | none =>
    rw [hbp] at h4
    dsimp only at h4
    cases hbi : alookup base_ancestors indi with
    | some e =>
      rw [hbi] at h4
      dsimp only at h4
      injection h4 with h4
      injection h4 with h4
      refine ⟨by rw [← h4], fun hn0 hn => ?_⟩
      exact Option.noConfusion hn
    | none =>
      rw [hbi] at h4
      dsimp only at h4
      injection h4 with h4
      constructor
      · rfl
      · intro _ _
        obtain ⟨hA, _, _, _⟩ :=
          cl_lemma base_ancestors anc 1000000 none r h4 (fun r0 h0 => Option.noConfusion h0)
        rcases hA with hA | hA
        · exact absurd hA (by simp)
        · exact hA

/-- Witness for `c4_fields_swapped` on the concrete direct-line store: the
match `P` is the reference's parent, and the record equals the
direct-ancestor shape with `path = []` and `match-path` the reference's path. -/
theorem c4_fields_swapped_witness :
    (⟨"P", "FM", [], "FM", ["FM"]⟩ : CommonRec)
      = (match alookup ([] : AncMap) "me" with
         | some e => (⟨"me", e.fam, e.path, e.fam, []⟩ : CommonRec)
         | none =>
           match alookup c4anc "P" with
           | some e => (⟨"P", e.fam, [], e.fam, e.path⟩ : CommonRec)
           | none => (⟨"P", "FM", [], "FM", ["FM"]⟩ : CommonRec)) :=
  (c4_fields_swapped c4store 10 "P" "me" c4anc []
      ⟨"P", "FM", [], "FM", ["FM"]⟩ (by decide) (by decide)).1

end DrawDna
